import Mathlib

/-!
Shallow embedding of `src/n-moku.py`: the board/rules engine (`Game`), the
tabular Q-learning agent (`QLearningAgent`), and the slice of the UI layer
that manipulates core game state (`UI.check_game_over`'s flag update).

Conventions of the embedding:
* Python `None | "o" | "x"` cells become `Option Mark`.
* Python ints are `Int` (board indices produced by the engine itself are `Nat`).
* Python floats (Q-values, `alpha`, `gamma`) are modelled exactly over `ℚ`.
* In-place mutation of `self` becomes explicit state passing: a method that
  mutates `self` returns the post-call object (paired with its return value).
* Calls to `random.choice` / `random.random()` are modelled by passing the
  drawn randomness explicitly (a choice seed `k : Nat`, an epsilon-fire flag).
* A Python statement that would raise is modelled with `Except Unit`.
-/

/-- The two player symbols `"o"` and `"x"`. -/
inductive Mark
  | o
  | x
deriving DecidableEq

/-- A board is the Python list `self.board` of `None | "o" | "x"` cells. -/
abbrev Board := List (Option Mark)

/-- Module-level constant `BOARD_SIZE = 9`. -/
def BOARD_SIZE : Int := 9

/-- Module-level constant `WIN_LENGTH = 4`. -/
def WIN_LENGTH : Int := 4

/-- Module-level constant `TRAINING_EPISODES = 100000`. -/
def TRAINING_EPISODES : Nat := 100000

/-- The state held by the Python `Game` object. -/
structure Game where
  board_size : Int
  win_length : Int
  human_first : Bool
  human_mark : Mark
  cpu_mark : Mark
  board : Board
  turn : Nat
  game_over : Bool
deriving DecidableEq

/-- `Game.__init__`: stores the parameters unchanged (no validation appears in
the source), derives the two marks from `human_first`, and creates the board
`[None] * (board_size * board_size)` with `turn = 0`, `game_over = False`.
For a negative `board_size`, `board_size * board_size` is still nonnegative,
so `Int.toNat` loses nothing. -/
def Game.init (board_size win_length : Int) (human_first : Bool) : Game :=
  { board_size := board_size
    win_length := win_length
    human_first := human_first
    human_mark := if human_first then Mark.o else Mark.x
    cpu_mark := if human_first then Mark.x else Mark.o
    board := List.replicate (board_size * board_size).toNat none
    turn := 0
    game_over := false }

/-- `Game.reset`: re-runs `__init__` with the stored size and run length. -/
def Game.reset (g : Game) (human_first : Bool) : Game :=
  Game.init g.board_size g.win_length human_first

/-- `Game.is_human_turn`. -/
def Game.is_human_turn (g : Game) : Bool :=
  (decide (g.turn % 2 = 0) && g.human_first) ||
    (decide (g.turn % 2 = 1) && !g.human_first)

/-- `Game.legal_move`: `0 <= idx < len(self.board) and self.board[idx] is None`.
The index is an `Int` so that out-of-range (including negative) inputs are
representable. -/
def Game.legal_move (g : Game) (idx : Int) : Bool :=
  decide (0 ≤ idx) && decide (idx < (g.board.length : Int)) &&
    decide (g.board[idx.toNat]? = some none)

/-- `Game.play`: on a terminal board or an illegal index it returns `False`
leaving the object untouched; otherwise it sets the cell, increments `turn`,
and returns `True`.  The second component is the post-call state of `self`
(the Python method mutates `self` in place). -/
def Game.play (g : Game) (idx : Int) (mark : Mark) : Bool × Game :=
  if g.game_over || !g.legal_move idx then (false, g)
  else (true, { g with board := g.board.set idx.toNat (some mark), turn := g.turn + 1 })

/-- `Game.available_moves`: indices of all `None` cells, in increasing order. -/
def Game.available_moves (g : Game) : List Nat :=
  (List.range g.board.length).filter fun i => decide (g.board[i]? = some none)

/-- The four direction vectors scanned by `Game.winner`. -/
def dirs : List (Int × Int) := [(1, 0), (0, 1), (1, 1), (1, -1)]

/-- The inner `while` loop of `Game.winner`: starting with the running `count`
at cell `(nr, nc)`, walk forward along `(dr, dc)` while the cell is in bounds
and holds `mark`; after each matched cell the count is incremented and checked
against `win_length` (Python `count >= self.win_length`, i.e.
`winLen ≤ count + 1`).  The `fuel` argument bounds the recursion; `winner`
passes `n.toNat`, which exceeds the number of in-bounds steps any of the four
directions can take, so the fuel never runs out before the loop's own exit.
An out-of-range lookup yields `none` and stops the walk (unreachable when the
board has `n * n` cells, since the bounds check precedes the lookup). -/
def scanDir (board : Board) (n : Int) (mark : Mark) (winLen : Int) (dr dc : Int) :
    Int → Int → Int → Nat → Bool
  | _, _, _, 0 => false
  | count, nr, nc, fuel + 1 =>
    if 0 ≤ nr ∧ nr < n ∧ 0 ≤ nc ∧ nc < n ∧ board[(nr * n + nc).toNat]? = some (some mark) then
      if winLen ≤ count + 1 then true
      else scanDir board n mark winLen dr dc (count + 1) (nr + dr) (nc + dc) fuel
    else false

/-- The per-cell body of `Game.winner`: `row, col = divmod(idx, n)` (Python
`divmod` is floor division, `Int.fdiv`/`Int.fmod`), then try each direction
with the count already at 1 for the origin cell. -/
def checkCellDirs (board : Board) (n : Int) (winLen : Int) (mark : Mark) (idx : Nat) : Bool :=
  let row := Int.fdiv (idx : Int) n
  let col := Int.fmod (idx : Int) n
  dirs.any fun d => scanDir board n mark winLen d.1 d.2 1 (row + d.1) (col + d.2) n.toNat

/-- The `for idx, mark in enumerate(self.board)` loop of `Game.winner`:
skip empty cells, return the first mark whose cell starts a detected run. -/
def winnerAux (board : Board) (n : Int) (winLen : Int) : List (Option Mark) → Nat → Option Mark
  | [], _ => none
  | none :: rest, idx => winnerAux board n winLen rest (idx + 1)
  | some mark :: rest, idx =>
    if checkCellDirs board n winLen mark idx then some mark
    else winnerAux board n winLen rest (idx + 1)

/-- `Game.winner`. -/
def Game.winner (g : Game) : Option Mark :=
  winnerAux g.board g.board_size g.win_length g.board 0

/-- `Game.is_draw`: `all(v is not None for v in self.board) and self.winner() is None`. -/
def Game.is_draw (g : Game) : Bool :=
  (g.board.all fun v => decide (v ≠ none)) && decide (g.winner = none)

/-- The spec's `Outcome` type: `InProgress | Win(mark) | Draw`. -/
inductive Outcome
  | InProgress
  | Win (m : Mark)
  | Draw
deriving DecidableEq

/-- The spec's `evaluate`, as the source composes `winner` and `is_draw`
(`UI.check_game_over` consults `winner()` first, `elif is_draw()`). -/
def Game.evaluate (g : Game) : Outcome :=
  match g.winner with
  | some m => Outcome.Win m
  | none => if g.is_draw then Outcome.Draw else Outcome.InProgress

/-- The effect of `UI.check_game_over` on the `Game` object: when there is a
winner or a draw it sets `self.game.game_over = True` and reports `True`;
otherwise it reports `False` and leaves the game untouched.  The result
dialog, redraw and retry handling that follow in the source are
presentation-only and touch no core state before a full re-initialization. -/
def check_game_over_sets (g : Game) : Bool × Game :=
  if (g.winner).isSome || g.is_draw then (true, { g with game_over := true }) else (false, g)

/-- Spec-side predicate (from the claim's words, for comparison with the
code's `winner`): the cell at row `r`, column `c` is in bounds and holds
`mark`. -/
def cellIs (board : Board) (n : Int) (mark : Mark) (r c : Int) : Prop :=
  0 ≤ r ∧ r < n ∧ 0 ≤ c ∧ c < n ∧ board[(r * n + c).toNat]? = some (some mark)

/-- Spec-side predicate (from the claim's words): the cells
`(r + k*dr, c + k*dc)` for `0 ≤ k < L` all hold `mark` — a forward run of at
least `L` consecutive same-mark cells starting at `(r, c)`. -/
def specRunFrom (board : Board) (n : Int) (mark : Mark) (L : Int) (r c dr dc : Int) : Prop :=
  ∀ k : Nat, (k : Int) < L → cellIs board n mark (r + k * dr) (c + k * dc)

/-- Spec-side predicate (from the claim's words): some occupied cell starts a
forward run of at least `win_length` cells of `mark` along one of the four
direction vectors. -/
def specRun (g : Game) (m : Mark) : Prop :=
  ∃ r c d, d ∈ dirs ∧
    specRunFrom g.board g.board_size m g.win_length r c d.1 d.2

/-- Character used for a mark when encoding a board state. -/
def mark_char : Mark → Char
  | Mark.o => 'o'
  | Mark.x => 'x'

/-- Character used for a cell when encoding a board state (`'.'` for `None`). -/
def cell_char : Option Mark → Char
  | none => '.'
  | some m => mark_char m

/-- `QLearningAgent.encode_state`: the string
`current_mark + ":" + "".join(chars)`. -/
def encode_state (board : Board) (current_mark : Mark) : String :=
  ⟨mark_char current_mark :: ':' :: board.map cell_char⟩

/-- The Q-table `self.q`: a Python dict from `(state, action)` to a float,
modelled as an association list where an insertion prepends (lookup finds the
most recent binding first, matching dict overwrite semantics). -/
abbrev QTable := List ((String × Nat) × ℚ)

/-- `QLearningAgent.get_q`: `self.q.get((state, action), 0.0)`. -/
def get_q (q : QTable) (state : String) (action : Nat) : ℚ :=
  match q.find? (fun e => decide (e.1 = (state, action))) with
  | some e => e.2
  | none => 0

/-- The dict assignment `self.q[(state, action)] = v`. -/
def set_q (q : QTable) (state : String) (action : Nat) (v : ℚ) : QTable :=
  ((state, action), v) :: q

/-- `random.choice(l)`: raises `IndexError` on an empty sequence, otherwise
returns the element at the drawn index `k % len(l)` (the draw `k` is passed
explicitly). -/
def py_choice (l : List α) (k : Nat) : Except Unit α :=
  match l with
  | [] => Except.error ()
  | x :: xs => Except.ok ((x :: xs).getD (k % (xs.length + 1)) x)

/-- The loop body of `QLearningAgent.best_action` accumulating
`(best_val, best_actions)`. -/
def best_step (q : QTable) (state : String) (acc : Option ℚ × List Nat) (action : Nat) :
    Option ℚ × List Nat :=
  let value := get_q q state action
  match acc with
  | (none, _) => (some value, [action])
  | (some best_val, best_actions) =>
    if best_val < value then (some value, [action])
    else if value = best_val then (some best_val, best_actions ++ [action])
    else (some best_val, best_actions)

/-- The `best_actions` list computed by the loop of
`QLearningAgent.best_action`. -/
def best_actions_list (q : QTable) (state : String) (available_moves : List Nat) : List Nat :=
  (available_moves.foldl (best_step q state) (none, [])).2

/-- `QLearningAgent.best_action`: `None` when the list is empty, otherwise
`random.choice(best_actions)` (the list is then nonempty, so this cannot
raise). -/
def best_action (q : QTable) (state : String) (available_moves : List Nat) (k : Nat) :
    Option Nat :=
  match best_actions_list q state available_moves with
  | [] => none
  | x :: xs => some ((x :: xs).getD (k % (xs.length + 1)) x)

/-- `QLearningAgent.choose_action`: with `training` set and the epsilon draw
firing (`random.random() < self.epsilon`, passed as `eps_fires`), return
`random.choice(available_moves)` — which raises on an empty list; otherwise
fall through to `best_action`. -/
def choose_action (q : QTable) (board : Board) (current_mark : Mark)
    (available_moves : List Nat) (training : Bool) (eps_fires : Bool) (k : Nat) :
    Except Unit (Option Nat) :=
  if training && eps_fires then
    (py_choice available_moves k).map some
  else
    Except.ok (best_action q (encode_state board current_mark) available_moves k)

/-- `QLearningAgent.update`: the temporal-difference update
`self.q[(state, action)] = current + alpha * (target - current)` with
`target = reward` when `done`, else `reward + gamma * max_next` where
`max_next` is `0.0` for an empty/absent `next_moves` and otherwise the
maximum of `get_q(next_state, a)` over `next_moves` (Python's `max` of a
nonempty sequence, i.e. a left fold of `max` seeded with the first value).
The terminal calls pass `next_state = None`, modelled by `Option String`
(the `getD ""` default is never read, since `next_moves` is `None` on
exactly those calls). -/
def update (alpha gamma : ℚ) (q : QTable) (state : String) (action : Nat) (reward : ℚ)
    (next_state : Option String) (next_moves : Option (List Nat)) (done : Bool) : QTable :=
  let current := get_q q state action
  let target :=
    if done then reward
    else
      let max_next : ℚ :=
        match next_moves with
        | some (b :: bs) =>
          (bs.map (fun a => get_q q (next_state.getD "") a)).foldl max
            (get_q q (next_state.getD "") b)
        | _ => 0
      reward + gamma * max_next
  set_q q state action (current + alpha * (target - current))

/-- `other = "x" if current_mark == "o" else "o"`. -/
def other_mark : Mark → Mark
  | Mark.o => Mark.x
  | Mark.x => Mark.o

/-- The mutable state of one `train_self_play` episode: the shared table, the
game, the mark to move, and the `last_sa` dict of pending (state, action)
pairs keyed by mark. -/
structure TrainState where
  q : QTable
  game : Game
  current_mark : Mark
  last_sa : Mark → Option (String × Nat)

/-- One iteration of the `while True` loop of
`QLearningAgent.train_self_play`, from the point where the randomly chosen
`action` is fixed (the choice itself is `choose_action` with
`training=True`).  Returns the new loop state and whether the episode ended
(`break`). -/
def trainStep (alpha gamma : ℚ) (ts : TrainState) (action : Nat) : TrainState × Bool :=
  let state := encode_state ts.game.board ts.current_mark
  let g2 := (ts.game.play (action : Int) ts.current_mark).2
  let win := g2.winner
  let draw := g2.is_draw
  if win.isSome || draw then
    let reward : ℚ := if win = some ts.current_mark then 1 else 0
    let q1 := update alpha gamma ts.q state action reward none none true
    let oth := other_mark ts.current_mark
    let q2 :=
      match ts.last_sa oth with
      | some sa => update alpha gamma q1 sa.1 sa.2 (if win.isSome then -1 else 0) none none true
      | none => q1
    ({ ts with q := q2, game := g2 }, true)
  else
    let oth := other_mark ts.current_mark
    let next_state := encode_state g2.board oth
    let next_moves := g2.available_moves
    let q1 := update alpha gamma ts.q state action 0 (some next_state) (some next_moves) false
    ({ q := q1
       game := g2
       current_mark := oth
       last_sa := fun mk => if mk = ts.current_mark then some (state, action) else ts.last_sa mk },
      false)

/-- The state at the top of one episode of `train_self_play`: a fresh game
with `human_first=True`, `current_mark = "o"`, and an empty `last_sa`. -/
def initTrainState (q : QTable) (board_size win_length : Int) : TrainState :=
  { q := q
    game := Game.init board_size win_length true
    current_mark := Mark.o
    last_sa := fun _ => none }

/-- One episode of `train_self_play`: loop `trainStep` until the board fills
or the episode ends, drawing the exploration flag and the choice seed for
step `i` from the supplied streams.  The fuel is immaterial beyond the board
size (each step fills a cell); the `.error`/`.ok none` branches of
`choose_action` are unreachable because the move list was just checked
nonempty. -/
def runEpisode (alpha gamma : ℚ) (eps_draws : Nat → Bool) (choice_draws : Nat → Nat) :
    Nat → Nat → TrainState → TrainState
  | 0, _, ts => ts
  | fuel + 1, step, ts =>
    let moves := ts.game.available_moves
    if moves.isEmpty then ts
    else
      match choose_action ts.q ts.game.board ts.current_mark moves true
          (eps_draws step) (choice_draws step) with
      | Except.error _ => ts
      | Except.ok none => ts
      | Except.ok (some a) =>
        let r := trainStep alpha gamma ts a
        if r.2 then r.1
        else runEpisode alpha gamma eps_draws choice_draws fuel (step + 1) r.1

/-- `QLearningAgent.select_move`: greedy `best_action`; if it returns `None`
fall back to `random.choice(available_moves)` (which raises on an empty
list). -/
def select_move (q : QTable) (board : Board) (current_mark : Mark)
    (available_moves : List Nat) (k k2 : Nat) : Except Unit Nat :=
  match best_action q (encode_state board current_mark) available_moves k with
  | none => py_choice available_moves k2
  | some action => Except.ok action

/-- C3 (amended): `Game.__init__` performs no validation at all.  For every
`size`, `run_length` (valid or not) and turn-order flag, construction
succeeds, stores both parameters unchanged (no clamping), and yields the
all-empty `size*size` board with `ply_count = 0` and `terminal = false`. -/
theorem c3_init_never_validates (s L : Int) (f : Bool) :
    (Game.init s L f).board_size = s ∧ (Game.init s L f).win_length = L ∧
    (Game.init s L f).board = List.replicate (s * s).toNat none ∧
    (Game.init s L f).turn = 0 ∧ (Game.init s L f).game_over = false :=
  ⟨rfl, rfl, rfl, rfl, rfl⟩

/-- C3 counterexample: with `size = 2 < run_length = 3` the claim demands the
construction fail with `InvalidConfig` and produce no `BoardState`; the code
happily produces a fully formed empty board. -/
theorem c3_counterexample :
    (Game.init 2 3 true).board_size < (Game.init 2 3 true).win_length ∧
    (Game.init 2 3 true).board = List.replicate 4 none ∧
    (Game.init 2 3 true).turn = 0 ∧
    (Game.init 2 3 true).game_over = false := by
  decide

/-- C4: on a terminal state, an out-of-range action, or an occupied cell,
`play` fails returning the state completely unmodified; otherwise it
succeeds, sets exactly the targeted cell to the mark (all other cells and
all configuration fields unchanged) and increments the ply count by one. -/
theorem c4_play_spec (g : Game) (idx : Int) (m : Mark)
    (hlen : (g.board.length : Int) = g.board_size * g.board_size) :
    ((g.game_over = true ∨ idx < 0 ∨ g.board_size * g.board_size ≤ idx ∨
        g.board[idx.toNat]? ≠ some none) →
      g.play idx m = (false, g))
  ∧ ((g.game_over = false ∧ 0 ≤ idx ∧ idx < g.board_size * g.board_size ∧
        g.board[idx.toNat]? = some none) →
      (g.play idx m).1 = true ∧
      (g.play idx m).2.board[idx.toNat]? = some (some m) ∧
      (∀ j : Nat, j ≠ idx.toNat → (g.play idx m).2.board[j]? = g.board[j]?) ∧
      (g.play idx m).2.turn = g.turn + 1 ∧
      (g.play idx m).2.board_size = g.board_size ∧
      (g.play idx m).2.win_length = g.win_length ∧
      (g.play idx m).2.game_over = g.game_over ∧
      (g.play idx m).2.human_first = g.human_first) := by
  constructor
  · intro h
    rcases h with h | h | h | h
    · simp [Game.play, h]
    · have h0 : ¬ (0 ≤ idx) := by omega
      simp [Game.play, Game.legal_move, h0]
    · have h1 : ¬ (idx < (g.board.length : Int)) := by omega
      simp [Game.play, Game.legal_move, h1]
    · simp [Game.play, Game.legal_move, h]
  · rintro ⟨hgo, h0, hlt, hcell⟩
    have hltn : idx < (g.board.length : Int) := by omega
    have hplay : g.play idx m =
        (true, { g with board := g.board.set idx.toNat (some m), turn := g.turn + 1 }) := by
      simp [Game.play, Game.legal_move, hgo, h0, hltn, hcell]
    have hidx : idx.toNat < g.board.length := by
      rcases List.getElem?_eq_some_iff.mp hcell with ⟨h, _⟩
      exact h
    refine ⟨by rw [hplay], ?_, ?_, by rw [hplay], by rw [hplay], by rw [hplay],
      by rw [hplay], by rw [hplay]⟩
    · rw [hplay]
      exact List.getElem?_set_self hidx
    · intro j hj
      rw [hplay]
      exact List.getElem?_set_ne (fun h => hj h.symm)

/-- C4 witness: a concrete successful move and a concrete rejected move on a
2×2 board. -/
theorem c4_witness :
    ((Game.init 2 2 true).play 1 Mark.o).1 = true ∧
    ((Game.init 2 2 true).play 1 Mark.o).2.turn = 1 ∧
    (Game.init 2 2 true).play 7 Mark.o = (false, Game.init 2 2 true) := by
  have h := c4_play_spec (Game.init 2 2 true) 1 Mark.o (by decide)
  have h2 := h.2 ⟨by decide, by decide, by decide, by decide⟩
  have h' := c4_play_spec (Game.init 2 2 true) 7 Mark.o (by decide)
  exact ⟨h2.1, by rw [h2.2.2.2.1]; decide, h'.1 (Or.inr (Or.inr (Or.inl (by decide))))⟩

/-- C5 (amended): the core's `play` never recomputes the terminal flag — it
leaves `game_over` exactly as it was; the flag is set by the UI layer
(`check_game_over`), and once that external caller has set it (which it does
whenever there is a winner or a draw) every further `play` fails leaving the
state unmodified. -/
theorem c5_terminal_flag (g : Game) (idx : Int) (m : Mark) :
    ((g.play idx m).2.game_over = g.game_over) ∧
    (((g.winner).isSome = true ∨ g.is_draw = true) →
      (check_game_over_sets g).2.game_over = true ∧
      ∀ j : Int, ∀ mk : Mark,
        (check_game_over_sets g).2.play j mk = (false, (check_game_over_sets g).2)) := by
  constructor
  · unfold Game.play
    split
    · rfl
    · rfl
  · intro h
    have hset : check_game_over_sets g = (true, { g with game_over := true }) := by
      unfold check_game_over_sets
      rcases h with h | h <;> simp [h]
    rw [hset]
    exact ⟨rfl, fun j mk => by simp [Game.play]⟩

/-- C5 witness: on the full 1×1 board the UI flag-setter reports game over,
sets the flag, and a further move is rejected. -/
theorem c5_witness :
    (check_game_over_sets
        { Game.init 1 1 true with board := [some Mark.o], turn := 1 }).2.game_over = true ∧
    ((check_game_over_sets
        { Game.init 1 1 true with board := [some Mark.o], turn := 1 }).2.play 0 Mark.x).1 =
      false := by
  have h := (c5_terminal_flag
    { Game.init 1 1 true with board := [some Mark.o], turn := 1 } 0 Mark.x).2
    (Or.inr (by decide))
  exact ⟨h.1, by rw [h.2 0 Mark.x]⟩

/-- C5 counterexample: after two successful moves by `"o"` on a 2×2 board
with `run_length = 2` there is a winner, yet the state's terminal flag is
still `false` and a further `play` call still succeeds — the core never
recomputes `terminal`; the claim's "without requiring any external caller to
set the flag" fails. -/
theorem c5_counterexample :
    Game.winner ((((Game.init 2 2 true).play 0 Mark.o).2.play 1 Mark.o).2) = some Mark.o ∧
    ((((Game.init 2 2 true).play 0 Mark.o).2.play 1 Mark.o).2).game_over = false ∧
    (((((Game.init 2 2 true).play 0 Mark.o).2.play 1 Mark.o).2).play 2 Mark.x).1 = true := by
  decide

/-- C6 (amended): `play` is deterministic but is not pure — it mutates the
game object in place: after a successful `play` the object's cell array has
changed, and re-applying the same action to the (mutated) object fails
because the cell is now occupied. -/
theorem c6_play_mutates_in_place (g : Game) (idx : Int) (m : Mark)
    (h : (g.play idx m).1 = true) :
    (g.play idx m).2.board ≠ g.board ∧
    (g.play idx m).2.play idx m = (false, (g.play idx m).2) := by
  by_cases hc : (g.game_over || !g.legal_move idx) = true
  · exfalso
    rw [Game.play] at h
    rw [if_pos hc] at h
    exact Bool.false_ne_true h
  · have hc' := hc
    simp only [Bool.or_eq_true, Bool.not_eq_true', not_or] at hc'
    obtain ⟨hgo, hlegal⟩ := hc'
    have hgo' : g.game_over = false := by
      cases hgob : g.game_over
      · rfl
      · exact absurd hgob hgo
    have hlegal' : g.legal_move idx = true := by
      cases hlb : g.legal_move idx
      · exact absurd hlb hlegal
      · rfl
    have hcell : g.board[idx.toNat]? = some none := by
      have := hlegal'
      unfold Game.legal_move at this
      simp only [Bool.and_eq_true, decide_eq_true_eq] at this
      exact this.2
    have hidx : idx.toNat < g.board.length := by
      rcases List.getElem?_eq_some_iff.mp hcell with ⟨h, _⟩
      exact h
    have hplay : g.play idx m =
        (true, { g with board := g.board.set idx.toNat (some m), turn := g.turn + 1 }) := by
      unfold Game.play
      rw [if_neg hc]
    have hnewcell : (g.play idx m).2.board[idx.toNat]? = some (some m) := by
      rw [hplay]
      exact List.getElem?_set_self hidx
    constructor
    · intro heq
      rw [heq, hcell] at hnewcell
      simp at hnewcell
    · rw [hplay]
      have hset := List.getElem?_set_self (a := some m) hidx
      simp [Game.play, Game.legal_move, hgo', hset]

/-- C6 witness: re-applying the same action to the mutated object fails. -/
theorem c6_witness :
    ((Game.init 2 2 true).play 1 Mark.o).2.play 1 Mark.o =
      (false, ((Game.init 2 2 true).play 1 Mark.o).2) :=
  (c6_play_mutates_in_place (Game.init 2 2 true) 1 Mark.o (by decide)).2

/-- C6 counterexample: a concrete successful `play` after which the object's
cells differ from what they were before the call — the original state object
is mutated, refuting "its cells and ply_count are unchanged afterwards". -/
theorem c6_counterexample :
    ((Game.init 2 2 true).play 0 Mark.o).1 = true ∧
    ((Game.init 2 2 true).play 0 Mark.o).2.board ≠ (Game.init 2 2 true).board ∧
    ((Game.init 2 2 true).play 0 Mark.o).2.turn ≠ (Game.init 2 2 true).turn := by
  decide

/-- Python's `max` of a list of values (0 for the empty list, which the
source never passes). -/
def pyMaxList (l : List ℚ) : ℚ :=
  match l with
  | [] => 0
  | x :: xs => xs.foldl max x

theorem le_foldl_max (l : List ℚ) (init : ℚ) : init ≤ l.foldl max init := by
  induction l generalizing init with
  | nil => exact le_refl init
  | cons x xs ih => exact le_trans (le_max_left init x) (ih (max init x))

theorem foldl_max_le_of_mem {l : List ℚ} {x : ℚ} (h : x ∈ l) (init : ℚ) :
    x ≤ l.foldl max init := by
  induction l generalizing init with
  | nil => cases h
  | cons y ys ih =>
    rcases List.mem_cons.mp h with h | h
    · subst h
      exact le_trans (le_max_right init x) (le_foldl_max ys (max init x))
    · exact ih h (max init y)

theorem foldl_max_mem (l : List ℚ) (init : ℚ) :
    l.foldl max init = init ∨ l.foldl max init ∈ l := by
  induction l generalizing init with
  | nil => exact Or.inl rfl
  | cons y ys ih =>
    rcases ih (max init y) with h | h
    · rw [List.foldl_cons, h]
      rcases max_choice init y with h' | h'
      · exact Or.inl h'
      · rw [h']
        exact Or.inr (List.mem_cons_self y ys)
    · rw [List.foldl_cons]
      exact Or.inr (List.mem_cons_of_mem y h)

theorem get_q_set_q_same (q : QTable) (s : String) (a : Nat) (v : ℚ) :
    get_q (set_q q s a v) s a = v := by
  simp [get_q, set_q, List.find?_cons]

theorem get_q_set_q_ne (q : QTable) (s : String) (a : Nat) (v : ℚ) (s' : String) (a' : Nat)
    (h : (s', a') ≠ (s, a)) : get_q (set_q q s a v) s' a' = get_q q s' a' := by
  have h' : ¬ (((s, a) : String × Nat) = (s', a')) := fun e => h e.symm
  simp [get_q, set_q, List.find?_cons, h']

theorem get_q_update_same_done (alpha gamma : ℚ) (q : QTable) (s : String) (a : Nat) (r : ℚ)
    (ns : Option String) (nm : Option (List Nat)) :
    get_q (update alpha gamma q s a r ns nm true) s a =
      get_q q s a + alpha * (r - get_q q s a) := by
  simp [update, get_q_set_q_same]

theorem get_q_update_same_not_done (alpha gamma : ℚ) (q : QTable) (s : String) (a : Nat)
    (r : ℚ) (ns : String) (l : List Nat) :
    get_q (update alpha gamma q s a r (some ns) (some l) false) s a =
      get_q q s a +
        alpha * ((r + gamma * pyMaxList (l.map (get_q q ns))) - get_q q s a) := by
  cases l with
  | nil => simp [update, get_q_set_q_same, pyMaxList]
  | cons b bs => simp [update, get_q_set_q_same, pyMaxList]

theorem get_q_update_other (alpha gamma : ℚ) (q : QTable) (s : String) (a : Nat) (r : ℚ)
    (ns : Option String) (nm : Option (List Nat)) (done : Bool) (s' : String) (a' : Nat)
    (h : (s', a') ≠ (s, a)) :
    get_q (update alpha gamma q s a r ns nm done) s' a' = get_q q s' a' := by
  unfold update
  exact get_q_set_q_ne q s a _ s' a' h

theorem pyMaxList_le_of_mem {l : List ℚ} {x : ℚ} (h : x ∈ l) : x ≤ pyMaxList l := by
  cases l with
  | nil => cases h
  | cons b bs =>
    rcases List.mem_cons.mp h with h | h
    · subst h
      exact le_foldl_max bs x
    · exact foldl_max_le_of_mem h b

theorem pyMaxList_mem {l : List ℚ} (h : l ≠ []) : pyMaxList l ∈ l := by
  cases l with
  | nil => exact absurd rfl h
  | cons b bs =>
    show bs.foldl max b ∈ b :: bs
    rcases foldl_max_mem bs b with h' | h'
    · rw [h']
      exact List.mem_cons_self b bs
    · exact List.mem_cons_of_mem b h'

/-- The accumulation step of `best_action` on an already-seen best value. -/
theorem best_step_some (q : QTable) (s : String) (bv : ℚ) (acts : List Nat) (a : Nat) :
    best_step q s (some bv, acts) a =
      if bv < get_q q s a then (some (get_q q s a), [a])
      else if get_q q s a = bv then (some bv, acts ++ [a])
      else (some bv, acts) := rfl

/-- Characterization of the `best_action` accumulation loop once a first
value has been seen: the running best is the left `max`-fold of the
remaining values and the accumulated list keeps exactly the maximizers. -/
theorem best_fold_spec (q : QTable) (s : String) (rest : List Nat) :
    ∀ (bv : ℚ) (acts : List Nat),
      rest.foldl (best_step q s) (some bv, acts) =
        (some ((rest.map (get_q q s)).foldl max bv),
          (if (rest.map (get_q q s)).foldl max bv = bv then acts else []) ++
            rest.filter fun b =>
              decide (get_q q s b = (rest.map (get_q q s)).foldl max bv)) := by
  induction rest with
  | nil => intro bv acts; simp
  | cons a rest' ih =>
    intro bv acts
    have hfoldcons : ∀ init : ℚ, ((a :: rest').map (get_q q s)).foldl max init =
        (rest'.map (get_q q s)).foldl max (max init (get_q q s a)) := by
      intro init
      rw [List.map_cons, List.foldl_cons]
    rcases lt_trichotomy bv (get_q q s a) with hlt | heq | hgt
    · -- a strict improvement resets the list to [a]
      have hbs : best_step q s (some bv, acts) a = (some (get_q q s a), [a]) := by
        rw [best_step_some, if_pos hlt]
      rw [List.foldl_cons, hbs, ih (get_q q s a) [a]]
      have hM : ((a :: rest').map (get_q q s)).foldl max bv =
          (rest'.map (get_q q s)).foldl max (get_q q s a) := by
        rw [hfoldcons, max_eq_right (le_of_lt hlt)]
      set M := (rest'.map (get_q q s)).foldl max (get_q q s a) with hMdef
      have hvM : get_q q s a ≤ M := le_foldl_max _ _
      have hMbv : M ≠ bv := fun h => absurd hlt (not_lt.mpr (h ▸ hvM))
      rw [hM, if_neg hMbv, List.filter_cons]
      by_cases hfa : get_q q s a = M
      · simp [hfa]
      · simp [hfa, Ne.symm hfa]
    · -- a tie appends a to the list
      have hbs : best_step q s (some bv, acts) a = (some bv, acts ++ [a]) := by
        rw [best_step_some, if_neg (by rw [← heq]; exact lt_irrefl bv), if_pos heq.symm]
      rw [List.foldl_cons, hbs, ih bv (acts ++ [a])]
      have hM : ((a :: rest').map (get_q q s)).foldl max bv =
          (rest'.map (get_q q s)).foldl max bv := by
        rw [hfoldcons, ← heq, max_self]
      set M := (rest'.map (get_q q s)).foldl max bv with hMdef
      rw [hM, List.filter_cons]
      by_cases hMb : M = bv
      · have hfa : get_q q s a = M := by rw [← heq, hMb]
        simp [hMb, hfa]
      · have hfa : ¬ get_q q s a = M := by rw [← heq]; exact fun h => hMb h.symm
        simp [hMb, hfa]
    · -- a smaller value changes nothing
      have hbs : best_step q s (some bv, acts) a = (some bv, acts) := by
        rw [best_step_some, if_neg (not_lt.mpr (le_of_lt hgt)), if_neg (ne_of_lt hgt)]
      rw [List.foldl_cons, hbs, ih bv acts]
      have hM : ((a :: rest').map (get_q q s)).foldl max bv =
          (rest'.map (get_q q s)).foldl max bv := by
        rw [hfoldcons, max_eq_left (le_of_lt hgt)]
      set M := (rest'.map (get_q q s)).foldl max bv with hMdef
      have hbvM : bv ≤ M := le_foldl_max _ _
      have hfa : ¬ get_q q s a = M :=
        fun h => absurd hbvM (not_le.mpr (h ▸ hgt))
      rw [hM, List.filter_cons]
      simp [hfa]

/-- `best_actions_list` on a nonempty move list: the maximum value and the
list of all its achievers. -/
theorem best_actions_list_char (q : QTable) (s : String) (a : Nat) (rest : List Nat) :
    best_actions_list q s (a :: rest) =
      (a :: rest).filter
        (fun b => decide (get_q q s b = pyMaxList ((a :: rest).map (get_q q s)))) ∧
    pyMaxList ((a :: rest).map (get_q q s)) ∈ (a :: rest).map (get_q q s) ∧
    ∀ b ∈ a :: rest, get_q q s b ≤ pyMaxList ((a :: rest).map (get_q q s)) := by
  have hfirst : best_step q s (none, []) a = (some (get_q q s a), [a]) := rfl
  have hfold : best_actions_list q s (a :: rest) =
      ((rest.foldl (best_step q s) (some (get_q q s a), [a]))).2 := by
    unfold best_actions_list
    rw [List.foldl_cons, hfirst]
  have hpy : pyMaxList ((a :: rest).map (get_q q s)) =
      (rest.map (get_q q s)).foldl max (get_q q s a) := by
    rw [List.map_cons]
    rfl
  refine ⟨?_, ?_, ?_⟩
  · rw [hfold, best_fold_spec q s rest (get_q q s a) [a], hpy, List.filter_cons]
    by_cases hfa :
        get_q q s a = (rest.map (get_q q s)).foldl max (get_q q s a)
    · rw [if_pos hfa.symm, if_pos (decide_eq_true hfa)]
      rfl
    · rw [if_neg (fun h => hfa h.symm), if_neg (fun h => hfa (of_decide_eq_true h))]
      rw [List.nil_append]
  · rw [hpy, List.map_cons]
    rcases foldl_max_mem (rest.map (get_q q s)) (get_q q s a) with h | h
    · rw [h]
      exact List.mem_cons_self _ _
    · exact List.mem_cons_of_mem _ h
  · intro b hb
    rw [hpy]
    rcases List.mem_cons.mp hb with h | h
    · rw [h]
      exact le_foldl_max _ _
    · exact foldl_max_le_of_mem (List.mem_map_of_mem (get_q q s) h) _

theorem best_actions_list_subset (q : QTable) (s : String) (moves : List Nat) :
    ∀ a ∈ best_actions_list q s moves, a ∈ moves := by
  cases moves with
  | nil => intro a ha; cases ha
  | cons x rest =>
    intro a ha
    rw [(best_actions_list_char q s x rest).1] at ha
    exact (List.mem_filter.mp ha).1

theorem best_actions_list_ne_nil (q : QTable) (s : String) (a : Nat) (rest : List Nat) :
    best_actions_list q s (a :: rest) ≠ [] := by
  obtain ⟨hfilt, hmem, _⟩ := best_actions_list_char q s a rest
  rcases List.mem_map.mp hmem with ⟨b, hb, hbM⟩
  have : b ∈ best_actions_list q s (a :: rest) := by
    rw [hfilt]
    exact List.mem_filter.mpr ⟨hb, decide_eq_true hbM⟩
  exact List.ne_nil_of_mem this

/-- The element `random.choice` extracts from a nonempty list is a member. -/
theorem getD_mod_mem (x : α) (xs : List α) (k : Nat) :
    (x :: xs).getD (k % (xs.length + 1)) x ∈ x :: xs := by
  have hlt : k % (xs.length + 1) < (x :: xs).length := by
    rw [List.length_cons]
    exact Nat.mod_lt k (Nat.succ_pos xs.length)
  rw [List.getD_eq_getElem?_getD, List.getElem?_eq_getElem hlt]
  exact List.getElem_mem hlt

theorem best_action_mem {q : QTable} {s : String} {moves : List Nat} {k : Nat} {a : Nat}
    (h : best_action q s moves k = some a) : a ∈ moves := by
  unfold best_action at h
  rcases hb : best_actions_list q s moves with _ | ⟨x, xs⟩
  · rw [hb] at h
    cases h
  · rw [hb] at h
    have := Option.some.inj h
    have hmem : a ∈ x :: xs := this ▸ getD_mod_mem x xs k
    rw [← hb] at hmem
    exact best_actions_list_subset q s moves a hmem

theorem best_action_eq_none_iff (q : QTable) (s : String) (moves : List Nat) (k : Nat) :
    best_action q s moves k = none ↔ moves = [] := by
  constructor
  · intro h
    cases moves with
    | nil => rfl
    | cons x rest =>
      exfalso
      unfold best_action at h
      rcases hb : best_actions_list q s (x :: rest) with _ | ⟨y, ys⟩
      · exact best_actions_list_ne_nil q s x rest hb
      · rw [hb] at h
        cases h
  · intro h
    subst h
    rfl

/-- C8: on a nonempty move list the greedy selection's candidate list is
exactly the set of maximizers of the stored value (default 0 for absent
keys), every possible returned action achieves the maximum, and every
maximizer is returned for a suitable random draw — no fixed first-index
choice. -/
theorem c8_best_action_maximizes (q : QTable) (s : String) (moves : List Nat)
    (h : moves ≠ []) :
    ∃ M : ℚ,
      (∀ b ∈ moves, get_q q s b ≤ M) ∧
      (∃ b ∈ moves, get_q q s b = M) ∧
      best_actions_list q s moves = moves.filter (fun b => decide (get_q q s b = M)) ∧
      (∀ k : Nat, ∃ a, best_action q s moves k = some a ∧ a ∈ moves ∧ get_q q s a = M) ∧
      (∀ a ∈ moves, get_q q s a = M → ∃ k : Nat, best_action q s moves k = some a) := by
  cases moves with
  | nil => exact absurd rfl h
  | cons x rest =>
    obtain ⟨hfilt, hmem, hub⟩ := best_actions_list_char q s x rest
    set M := pyMaxList ((x :: rest).map (get_q q s)) with hMdef
    rcases List.mem_map.mp hmem with ⟨b, hb, hbM⟩
    refine ⟨M, hub, ⟨b, hb, hbM⟩, hfilt, ?_, ?_⟩
    · intro k
      rcases hlist : best_actions_list q s (x :: rest) with _ | ⟨y, ys⟩
      · exact absurd hlist (best_actions_list_ne_nil q s x rest)
      · have hsub : ∀ z, z ∈ y :: ys → z ∈ x :: rest ∧ get_q q s z = M := by
          intro z hz
          have hzb : z ∈ best_actions_list q s (x :: rest) := by
            rw [hlist]
            exact hz
          rw [hfilt] at hzb
          have hzf := List.mem_filter.mp hzb
          exact ⟨hzf.1, of_decide_eq_true hzf.2⟩
        have hz := hsub _ (getD_mod_mem y ys k)
        refine ⟨(y :: ys).getD (k % (ys.length + 1)) y, ?_, hz.1, hz.2⟩
        unfold best_action
        rw [hlist]
    · intro a ha haM
      have hmem' : a ∈ best_actions_list q s (x :: rest) := by
        rw [hfilt]
        exact List.mem_filter.mpr ⟨ha, decide_eq_true haM⟩
      rcases hlist : best_actions_list q s (x :: rest) with _ | ⟨y, ys⟩
      · rw [hlist] at hmem'
        cases hmem'
      · rw [hlist] at hmem'
        rcases List.mem_iff_getElem.mp hmem' with ⟨j, hj, hjget⟩
        have hjlt : j < ys.length + 1 := by
          rw [List.length_cons] at hj
          exact hj
        refine ⟨j, ?_⟩
        unfold best_action
        rw [hlist]
        show some ((y :: ys).getD (j % (ys.length + 1)) y) = some a
        rw [Nat.mod_eq_of_lt hjlt, List.getD_eq_getElem?_getD,
          List.getElem?_eq_getElem hj, hjget]
        rfl

/-- C8 witness: with an empty table both moves tie at 0, the candidate list
is the full move list, and draw 0 returns the first maximizer. -/
theorem c8_witness :
    ∃ a, best_action [] "A" [0, 1] 0 = some a ∧ a ∈ [0, 1] ∧ get_q [] "A" a = 0 := by
  obtain ⟨M, hub, ⟨b, _, hbM⟩, _, hk, _⟩ :=
    c8_best_action_maximizes [] "A" [0, 1] (by decide)
  have hM : M = 0 := by
    rw [← hbM]
    rfl
  obtain ⟨a, ha1, ha2, ha3⟩ := hk 0
  exact ⟨a, ha1, ha2, by rw [ha3, hM]⟩

/-- C9 (amended): the selector returns `None` iff the legal-move list is
empty *and* the exploration branch does not fire; when the exploration
branch fires on an empty list the call raises (Python `IndexError` from
`random.choice([])`) instead of returning `None`. -/
theorem c9_choose_action_empty (q : QTable) (board : Board) (cm : Mark) (moves : List Nat)
    (training eps_fires : Bool) (k : Nat) :
    (choose_action q board cm moves training eps_fires k = Except.ok none ↔
      (moves = [] ∧ ¬(training = true ∧ eps_fires = true))) ∧
    (choose_action q board cm moves training eps_fires k = Except.error () ↔
      (moves = [] ∧ training = true ∧ eps_fires = true)) := by
  by_cases hb : (training && eps_fires) = true
  · have hb' : training = true ∧ eps_fires = true := by
      simpa [Bool.and_eq_true] using hb
    cases moves with
    | nil =>
      constructor
      · simp [choose_action, hb, py_choice, Except.map, hb']
      · simp [choose_action, hb, py_choice, Except.map, hb']
    | cons x xs =>
      constructor
      · simp [choose_action, hb, py_choice, Except.map]
      · simp [choose_action, hb, py_choice, Except.map]
  · have hb' : ¬ (training = true ∧ eps_fires = true) := by
      simpa [Bool.and_eq_true] using hb
    constructor
    · rw [choose_action, if_neg hb]
      constructor
      · intro h
        have := Except.ok.inj h
        exact ⟨(best_action_eq_none_iff q (encode_state board cm) moves k).mp this, hb'⟩
      · rintro ⟨hm, _⟩
        rw [(best_action_eq_none_iff q (encode_state board cm) moves k).mpr hm]
    · rw [choose_action, if_neg hb]
      constructor
      · intro h
        cases h
      · rintro ⟨_, ht, hf⟩
        exact absurd ⟨ht, hf⟩ hb'

/-- C9 witness: empty list, exploration off — returns `None` normally. -/
theorem c9_witness : choose_action [] [] Mark.o [] true false 0 = Except.ok none :=
  ((c9_choose_action_empty [] [] Mark.o [] true false 0).1).mpr
    ⟨rfl, fun h => Bool.false_ne_true h.2⟩

/-- C9 counterexample: with the exploration branch firing on an empty
legal-move list, `choose_action` raises (`random.choice([])`) instead of
returning `None` — refuting "always returns None normally (it never raises)
regardless of whether the exploration branch fires". -/
theorem c9_counterexample :
    choose_action [] [] Mark.o [] true true 0 = Except.error () := rfl

/-- C10: every selection entry point only ever proposes an element of the
supplied `available_moves` list, and `available_moves` lists exactly the
in-range `Empty` cells. -/
theorem c10_agent_moves_legal (q : QTable) (g : Game) (board : Board) (cm : Mark)
    (moves : List Nat) (training fires : Bool) (k k2 : Nat) :
    (∀ a : Nat, best_action q (encode_state board cm) moves k = some a → a ∈ moves) ∧
    (∀ a : Nat, choose_action q board cm moves training fires k = Except.ok (some a) →
      a ∈ moves) ∧
    (∀ a : Nat, select_move q board cm moves k k2 = Except.ok a → a ∈ moves) ∧
    (∀ i : Nat, i ∈ g.available_moves ↔ i < g.board.length ∧ g.board[i]? = some none) := by
  refine ⟨fun a h => best_action_mem h, ?_, ?_, ?_⟩
  · intro a h
    unfold choose_action at h
    by_cases hb : (training && fires) = true
    · rw [if_pos hb] at h
      cases moves with
      | nil => cases h
      | cons x xs =>
        simp only [py_choice, Except.map] at h
        have := Option.some.inj (Except.ok.inj h)
        rw [← this]
        exact getD_mod_mem x xs k
    · rw [if_neg hb] at h
      exact best_action_mem (Except.ok.inj h)
  · intro a h
    unfold select_move at h
    rcases hba : best_action q (encode_state board cm) moves k with _ | b
    · rw [hba] at h
      cases moves with
      | nil => cases h
      | cons x xs =>
        simp only [py_choice] at h
        rw [← Except.ok.inj h]
        exact getD_mod_mem x xs k2
    · rw [hba] at h
      rw [← Except.ok.inj h]
      exact best_action_mem hba
  · intro i
    unfold Game.available_moves
    rw [List.mem_filter, List.mem_range, decide_eq_true_eq]

/-- C10 witness: index 0 is listed as available on a fresh 1×1 board, and a
concrete `select_move` result is a member of the supplied moves. -/
theorem c10_witness : 0 ∈ (Game.init 1 1 true).available_moves :=
  ((c10_agent_moves_legal [] (Game.init 1 1 true) [] Mark.o [] false false 0 0).2.2.2 0).mpr
    ⟨by decide, by decide⟩

theorem encode_state_mark_eq {b1 b2 : Board} {m1 m2 : Mark}
    (h : encode_state b1 m1 = encode_state b2 m2) : m1 = m2 := by
  have hdata : mark_char m1 :: ':' :: b1.map cell_char =
      mark_char m2 :: ':' :: b2.map cell_char := congrArg String.data h
  have hc : mark_char m1 = mark_char m2 := (List.cons.injEq _ _ _ _ ▸ hdata).1
  cases m1 <;> cases m2
  · rfl
  · exact absurd hc (by decide)
  · exact absurd hc (by decide)
  · rfl

theorem other_mark_ne (m : Mark) : other_mark m ≠ m := by
  cases m <;> decide

/-- C7: in the self-play training loop, the table write for the mover's
just-taken (state, action) pair follows
`Q(s,a) <- Q(s,a) + alpha * (target - Q(s,a))`, where the target is the raw
reward when the resulting position is terminal (1 to the mover when the
winner is the mover's mark, else 0; and -1 to the opponent's pending pair
when there was a winner, 0 to it on a draw), and otherwise is
`0 + gamma * M` with `M` the maximum stored value (absent keys reading 0)
over the next legal actions of the next state encoded with the opponent's
mark to act.  The pending-pair hypothesis records that `last_sa` holds
states encoded for the mark they are keyed by, which is an invariant of the
loop (`last_sa[current_mark] = (state, action)` with
`state = encode_state(board, current_mark)`). -/
theorem c7_training_update_rule (alpha gamma : ℚ) (ts : TrainState) (action : Nat)
    (mv : Mark) (g2 : Game) (st ns : String) (nm : List Nat)
    (hmv : mv = ts.current_mark)
    (hg2 : g2 = (ts.game.play (action : Int) mv).2)
    (hst : st = encode_state ts.game.board mv)
    (hns : ns = encode_state g2.board (other_mark mv))
    (hnm : nm = g2.available_moves)
    (hpend : ∀ sa : String × Nat, ts.last_sa (other_mark mv) = some sa →
      ∃ b : Board, sa.1 = encode_state b (other_mark mv)) :
    ((g2.winner.isSome = true ∨ g2.is_draw = true) →
      (get_q (trainStep alpha gamma ts action).1.q st action =
        get_q ts.q st action +
          alpha * ((if g2.winner = some mv then 1 else 0) - get_q ts.q st action)) ∧
      ∀ sa : String × Nat, ts.last_sa (other_mark mv) = some sa →
        get_q (trainStep alpha gamma ts action).1.q sa.1 sa.2 =
          get_q ts.q sa.1 sa.2 +
            alpha * ((if g2.winner.isSome then -1 else 0) - get_q ts.q sa.1 sa.2)) ∧
    ((g2.winner = none ∧ g2.is_draw = false) →
      (get_q (trainStep alpha gamma ts action).1.q st action =
        get_q ts.q st action +
          alpha * ((0 + gamma * pyMaxList (nm.map (get_q ts.q ns))) -
            get_q ts.q st action)) ∧
      (∀ bmv ∈ nm, get_q ts.q ns bmv ≤ pyMaxList (nm.map (get_q ts.q ns))) ∧
      (nm ≠ [] → pyMaxList (nm.map (get_q ts.q ns)) ∈ nm.map (get_q ts.q ns)) ∧
      (nm = [] → pyMaxList (nm.map (get_q ts.q ns)) = 0) ∧
      (trainStep alpha gamma ts action).1.last_sa ts.current_mark = some (st, action)) := by
  subst hmv
  subst hg2
  subst hst
  subst hns
  subst hnm
  have hstkey : ∀ sa : String × Nat,
      ts.last_sa (other_mark ts.current_mark) = some sa →
      ((encode_state ts.game.board ts.current_mark, action) : String × Nat) ≠ (sa.1, sa.2) := by
    intro sa hsa heq
    obtain ⟨b, hb⟩ := hpend sa hsa
    have hs : encode_state ts.game.board ts.current_mark = sa.1 :=
      congrArg Prod.fst heq
    rw [hb] at hs
    exact other_mark_ne ts.current_mark (encode_state_mark_eq hs.symm)
  constructor
  · intro hterm
    have hcond : (((ts.game.play (action : Int) ts.current_mark).2.winner).isSome ||
        (ts.game.play (action : Int) ts.current_mark).2.is_draw) = true := by
      rcases hterm with h | h
      · rw [h]
        rfl
      · rw [h]
        simp
    unfold trainStep
    rw [if_pos hcond]
    rcases hsa : ts.last_sa (other_mark ts.current_mark) with _ | sa
    · simp only [hsa]
      refine ⟨get_q_update_same_done _ _ _ _ _ _ _ _, ?_⟩
      intro sa' hsa'
      cases hsa'
    · simp only [hsa]
      constructor
      · rw [get_q_update_other _ _ _ _ _ _ _ _ _ _ _ (hstkey sa hsa)]
        exact get_q_update_same_done _ _ _ _ _ _ _ _
      · intro sa' hsa'
        have hsa'' : sa = sa' := Option.some.inj hsa'
        subst hsa''
        rw [get_q_update_same_done]
        rw [get_q_update_other _ _ _ _ _ _ _ _ _ _ _ (fun h => hstkey sa hsa h.symm)]
  · rintro ⟨hwin, hdraw⟩
    have hcond : (((ts.game.play (action : Int) ts.current_mark).2.winner).isSome ||
        (ts.game.play (action : Int) ts.current_mark).2.is_draw) = false := by
      rw [hwin, hdraw]
      rfl
    have hcond' : ¬ ((((ts.game.play (action : Int) ts.current_mark).2.winner).isSome ||
        (ts.game.play (action : Int) ts.current_mark).2.is_draw) = true) := by
      rw [hcond]
      exact Bool.false_ne_true
    unfold trainStep
    rw [if_neg hcond']
    refine ⟨get_q_update_same_not_done _ _ _ _ _ _ _ _, ?_, ?_, ?_, ?_⟩
    · intro bmv hb
      exact pyMaxList_le_of_mem (List.mem_map_of_mem _ hb)
    · intro hne
      exact pyMaxList_mem (fun h => hne (List.map_eq_nil_iff.mp h))
    · intro h
      rw [h]
      rfl
    · exact if_pos rfl

/-- C7 witness: first move of an episode on an empty table and empty 2×2
board — a non-terminal position, whose bootstrap target is
`0 + gamma * 0 = 0`, leaving the entry at 0. -/
theorem c7_witness :
    get_q (trainStep (1 / 2) (9 / 10) (initTrainState [] 2 2) 0).1.q
      (encode_state (initTrainState [] 2 2).game.board Mark.o) 0 = 0 := by
  have h := c7_training_update_rule (1 / 2) (9 / 10) (initTrainState [] 2 2) 0
    Mark.o (((initTrainState [] 2 2).game.play ((0 : Nat) : Int) Mark.o).2)
    (encode_state (initTrainState [] 2 2).game.board Mark.o)
    (encode_state (((initTrainState [] 2 2).game.play ((0 : Nat) : Int) Mark.o).2).board
      (other_mark Mark.o))
    ((((initTrainState [] 2 2).game.play ((0 : Nat) : Int) Mark.o).2).available_moves)
    rfl rfl rfl rfl rfl (fun sa hsa => by cases hsa)
  obtain ⟨h1, _, _, _, _⟩ := h.2 ⟨by decide, by decide⟩
  rw [h1]
  have hmoves : ((((initTrainState [] 2 2).game.play ((0 : Nat) : Int) Mark.o).2).available_moves)
      = [1, 2, 3] := by decide
  rw [hmoves]
  norm_num [get_q, pyMaxList, initTrainState, List.find?_nil]

/-- If the walking loop reports a win, the cells it visited form a run of
`mark` long enough, together with the already-counted prefix, to reach
`win_length`. -/
theorem scan_sound (board : Board) (n : Int) (mark : Mark) (winLen : Int) (dr dc : Int) :
    ∀ (fuel : Nat) (count nr nc : Int),
      scanDir board n mark winLen dr dc count nr nc fuel = true →
      ∃ j : Nat,
        (∀ k : Nat, k ≤ j →
          cellIs board n mark (nr + (k : Int) * dr) (nc + (k : Int) * dc)) ∧
        winLen ≤ count + (j : Int) + 1 := by
  intro fuel
  induction fuel with
  | zero =>
    intro count nr nc h
    simp only [scanDir] at h
    exact absurd h Bool.false_ne_true
  | succ fuel ih =>
    intro count nr nc h
    simp only [scanDir] at h
    by_cases hcond : 0 ≤ nr ∧ nr < n ∧ 0 ≤ nc ∧ nc < n ∧
        board[(nr * n + nc).toNat]? = some (some mark)
    · rw [if_pos hcond] at h
      by_cases hwl : winLen ≤ count + 1
      · refine ⟨0, ?_, by push_cast; omega⟩
        intro k hk
        have hk0 : k = 0 := Nat.le_zero.mp hk
        subst hk0
        have e1 : nr + ((0 : Nat) : Int) * dr = nr := by push_cast; ring
        have e2 : nc + ((0 : Nat) : Int) * dc = nc := by push_cast; ring
        rw [e1, e2]
        exact hcond
      · rw [if_neg hwl] at h
        obtain ⟨j, hcells, hwin⟩ := ih (count + 1) (nr + dr) (nc + dc) h
        refine ⟨j + 1, ?_, by push_cast at hwin ⊢; omega⟩
        intro k hk
        cases k with
        | zero =>
          have e1 : nr + ((0 : Nat) : Int) * dr = nr := by push_cast; ring
          have e2 : nc + ((0 : Nat) : Int) * dc = nc := by push_cast; ring
          rw [e1, e2]
          exact hcond
        | succ k' =>
          have hk' : k' ≤ j := by omega
          have e1 : nr + ((k' + 1 : Nat) : Int) * dr = nr + dr + (k' : Int) * dr := by
            push_cast
            ring
          have e2 : nc + ((k' + 1 : Nat) : Int) * dc = nc + dc + (k' : Int) * dc := by
            push_cast
            ring
          rw [e1, e2]
          exact hcells k' hk'
    · rw [if_neg hcond] at h
      exact absurd h Bool.false_ne_true

/-- If a forward run of `mark` cells long enough to reach `win_length` lies
ahead, the walking loop reports a win, as long as the fuel covers the steps
needed. -/
theorem scan_complete (board : Board) (n : Int) (mark : Mark) (winLen : Int) (dr dc : Int) :
    ∀ (t fuel : Nat) (count nr nc : Int),
      (∀ k : Nat, k < t →
        cellIs board n mark (nr + (k : Int) * dr) (nc + (k : Int) * dc)) →
      winLen ≤ count + (t : Int) → 1 ≤ t → t ≤ fuel →
      scanDir board n mark winLen dr dc count nr nc fuel = true := by
  intro t
  induction t with
  | zero => intro fuel count nr nc _ _ h1 _; omega
  | succ t' ih =>
    intro fuel count nr nc hcells hwin _ hfuel
    cases fuel with
    | zero => omega
    | succ f =>
      simp only [scanDir]
      have hcell0 : cellIs board n mark nr nc := by
        have h0 := hcells 0 (Nat.succ_pos t')
        have e1 : nr + ((0 : Nat) : Int) * dr = nr := by push_cast; ring
        have e2 : nc + ((0 : Nat) : Int) * dc = nc := by push_cast; ring
        rwa [e1, e2] at h0
      have hcond : 0 ≤ nr ∧ nr < n ∧ 0 ≤ nc ∧ nc < n ∧
          board[(nr * n + nc).toNat]? = some (some mark) := hcell0
      rw [if_pos hcond]
      by_cases hwl : winLen ≤ count + 1
      · rw [if_pos hwl]
      · rw [if_neg hwl]
        apply ih f (count + 1) (nr + dr) (nc + dc)
        · intro k hk
          have hc := hcells (k + 1) (by omega)
          have e1 : nr + ((k + 1 : Nat) : Int) * dr = nr + dr + (k : Int) * dr := by
            push_cast
            ring
          have e2 : nc + ((k + 1 : Nat) : Int) * dc = nc + dc + (k : Int) * dc := by
            push_cast
            ring
          rwa [e1, e2] at hc
        · push_cast at hwin ⊢
          omega
        · push_cast at hwin hwl
          omega
        · omega

/-- If the cell loop of `winner` returns a mark, some cell of the traversed
list holds that mark and passes the directional check at its absolute
index. -/
theorem winnerAux_eq_some (full : Board) (n winLen : Int) :
    ∀ (l : List (Option Mark)) (i : Nat) (m : Mark),
      winnerAux full n winLen l i = some m →
      ∃ j : Nat, l[j]? = some (some m) ∧ checkCellDirs full n winLen m (i + j) = true := by
  intro l
  induction l with
  | nil =>
    intro i m h
    simp only [winnerAux] at h
    exact Option.noConfusion h
  | cons c rest ih =>
    intro i m h
    cases c with
    | none =>
      simp only [winnerAux] at h
      obtain ⟨j, hj1, hj2⟩ := ih (i + 1) m h
      refine ⟨j + 1, by simpa using hj1, ?_⟩
      have e : i + (j + 1) = i + 1 + j := by omega
      rw [e]
      exact hj2
    | some mk =>
      simp only [winnerAux] at h
      by_cases hchk : checkCellDirs full n winLen mk i = true
      · rw [if_pos hchk] at h
        have hmk : mk = m := Option.some.inj h
        subst hmk
        exact ⟨0, by simp, by rw [Nat.add_zero]; exact hchk⟩
      · rw [if_neg hchk] at h
        obtain ⟨j, hj1, hj2⟩ := ih (i + 1) m h
        refine ⟨j + 1, by simpa using hj1, ?_⟩
        have e : i + (j + 1) = i + 1 + j := by omega
        rw [e]
        exact hj2

/-- If the cell loop of `winner` returns no mark, the directional check
fails at every occupied cell of the traversed list. -/
theorem winnerAux_eq_none (full : Board) (n winLen : Int) :
    ∀ (l : List (Option Mark)) (i : Nat),
      winnerAux full n winLen l i = none →
      ∀ (j : Nat) (m : Mark), l[j]? = some (some m) →
        checkCellDirs full n winLen m (i + j) = false := by
  intro l
  induction l with
  | nil =>
    intro i _ j m hj
    simp at hj
  | cons c rest ih =>
    intro i h j m hj
    cases c with
    | none =>
      simp only [winnerAux] at h
      cases j with
      | zero => simp at hj
      | succ j' =>
        have e : i + (j' + 1) = i + 1 + j' := by omega
        rw [e]
        exact ih (i + 1) h j' m (by simpa using hj)
    | some mk =>
      simp only [winnerAux] at h
      by_cases hchk : checkCellDirs full n winLen mk i = true
      · rw [if_pos hchk] at h
        exact Option.noConfusion h
      · rw [if_neg hchk] at h
        cases j with
        | zero =>
          have hmk : mk = m := by
            have := hj
            simp only [List.getElem?_cons_zero] at this
            exact Option.some.inj (Option.some.inj this)
          subst hmk
          rw [Nat.add_zero]
          simpa using hchk
        | succ j' =>
          have e : i + (j' + 1) = i + 1 + j' := by omega
          rw [e]
          exact ih (i + 1) h j' m (by simpa using hj)

/-- A board with no occupied cell produces no winner. -/
theorem winnerAux_all_none (full : Board) (n winLen : Int) :
    ∀ (l : List (Option Mark)) (i : Nat), (∀ c ∈ l, c = none) →
      winnerAux full n winLen l i = none := by
  intro l
  induction l with
  | nil => intro i _; rfl
  | cons c rest ih =>
    intro i hall
    have hc : c = none := hall c (List.mem_cons_self c rest)
    subst hc
    simp only [winnerAux]
    exact ih (i + 1) fun x hx => hall x (List.mem_cons_of_mem none hx)

/-- `divmod(idx, n)` for `0 ≤ idx < n*n`, `0 < n`: both components are in
`[0, n)` and recompose to `idx`. -/
theorem divmod_bridge {n : Int} (hn : 0 < n) (idx : Nat) (hidx : (idx : Int) < n * n) :
    0 ≤ Int.fdiv (idx : Int) n ∧ Int.fdiv (idx : Int) n < n ∧
    0 ≤ Int.fmod (idx : Int) n ∧ Int.fmod (idx : Int) n < n ∧
    Int.fdiv (idx : Int) n * n + Int.fmod (idx : Int) n = (idx : Int) := by
  have h0 : (0 : Int) ≤ (idx : Int) := Int.natCast_nonneg idx
  have hd0 : 0 ≤ Int.fdiv (idx : Int) n := Int.fdiv_nonneg h0 (le_of_lt hn)
  have hm0 : 0 ≤ Int.fmod (idx : Int) n := Int.fmod_nonneg' _ hn
  have hmlt : Int.fmod (idx : Int) n < n := Int.fmod_lt_of_pos _ hn
  have hsum : Int.fmod (idx : Int) n + n * Int.fdiv (idx : Int) n = (idx : Int) :=
    Int.fmod_add_fdiv _ _
  have hdlt : Int.fdiv (idx : Int) n < n := by
    by_contra hge
    push_neg at hge
    have h1 : n * n ≤ n * Int.fdiv (idx : Int) n :=
      mul_le_mul_of_nonneg_left hge (le_of_lt hn)
    omega
  exact ⟨hd0, hdlt, hm0, hmlt, by rw [mul_comm]; omega⟩

/-- `divmod(r*n + c, n) = (r, c)` for `0 ≤ c < n`. -/
theorem divmod_encode {n r c : Int} (hn : 0 < n) (hc0 : 0 ≤ c) (hcn : c < n) :
    Int.fdiv (r * n + c) n = r ∧ Int.fmod (r * n + c) n = c := by
  have hne : n ≠ 0 := ne_of_gt hn
  have he : r * n + c = c + r * n := by ring
  constructor
  · rw [Int.fdiv_eq_ediv _ (le_of_lt hn), he, Int.add_mul_ediv_right c r hne,
      Int.ediv_eq_zero_of_lt hc0 hcn, zero_add]
  · rw [Int.fmod_eq_emod _ (le_of_lt hn), he, Int.add_mul_emod_self,
      Int.emod_eq_of_lt hc0 hcn]

/-- Soundness of `winner` against the claim's run predicate: whenever
`winner` reports a mark, some occupied cell starts a forward run of at least
`win_length` same-mark cells in one of the four directions.  (This direction
needs no lower bound on `win_length`.) -/
theorem winner_some_spec (g : Game) (hn : 0 < g.board_size)
    (hlen : (g.board.length : Int) = g.board_size * g.board_size) (m : Mark)
    (h : g.winner = some m) : specRun g m := by
  obtain ⟨j, hj1, hj2⟩ := winnerAux_eq_some g.board g.board_size g.win_length g.board 0 m h
  rw [Nat.zero_add] at hj2
  have hjlt : (j : Int) < g.board_size * g.board_size := by
    rcases List.getElem?_eq_some_iff.mp hj1 with ⟨hjl, _⟩
    omega
  obtain ⟨hr0, hrn, hc0, hcn, hrc⟩ := divmod_bridge hn j hjlt
  unfold checkCellDirs at hj2
  rcases List.any_eq_true.mp hj2 with ⟨d, hd, hscan⟩
  obtain ⟨jj, hcells, hwl⟩ := scan_sound g.board g.board_size m g.win_length d.1 d.2
    g.board_size.toNat 1 (Int.fdiv (j : Int) g.board_size + d.1)
    (Int.fmod (j : Int) g.board_size + d.2) hscan
  refine ⟨Int.fdiv (j : Int) g.board_size, Int.fmod (j : Int) g.board_size, d, hd, ?_⟩
  intro k hk
  cases k with
  | zero =>
    have e1 : Int.fdiv (j : Int) g.board_size + ((0 : Nat) : Int) * d.1 =
        Int.fdiv (j : Int) g.board_size := by push_cast; ring
    have e2 : Int.fmod (j : Int) g.board_size + ((0 : Nat) : Int) * d.2 =
        Int.fmod (j : Int) g.board_size := by push_cast; ring
    rw [e1, e2]
    refine ⟨hr0, hrn, hc0, hcn, ?_⟩
    have hidx : (Int.fdiv (j : Int) g.board_size * g.board_size +
        Int.fmod (j : Int) g.board_size).toNat = j := by
      rw [hrc]
      exact Int.toNat_natCast j
    rw [hidx]
    exact hj1
  | succ k' =>
    have hk'' : k' ≤ jj := by
      have hkInt : ((k' + 1 : Nat) : Int) < g.win_length := hk
      push_cast at hkInt hwl
      omega
    have hc := hcells k' hk''
    have e1 : Int.fdiv (j : Int) g.board_size + ((k' + 1 : Nat) : Int) * d.1 =
        Int.fdiv (j : Int) g.board_size + d.1 + (k' : Int) * d.1 := by push_cast; ring
    have e2 : Int.fmod (j : Int) g.board_size + ((k' + 1 : Nat) : Int) * d.2 =
        Int.fmod (j : Int) g.board_size + d.2 + (k' : Int) * d.2 := by push_cast; ring
    rw [e1, e2]
    exact hc

/-- Completeness of `winner` against the claim's run predicate for
`2 ≤ win_length ≤ size`: if some occupied cell starts a forward run of at
least `win_length` same-mark cells, `winner` reports a mark. -/
theorem specRun_winner_isSome (g : Game) (hn : 0 < g.board_size)
    (h2 : 2 ≤ g.win_length) (hLn : g.win_length ≤ g.board_size)
    (hlen : (g.board.length : Int) = g.board_size * g.board_size) (m : Mark)
    (h : specRun g m) : (g.winner).isSome = true := by
  by_contra hno
  have hnone : g.winner = none := by
    cases hw : g.winner with
    | none => rfl
    | some m' =>
      rw [hw] at hno
      exact absurd rfl hno
  obtain ⟨r, c, d, hd, hrun⟩ := h
  have h0run := hrun 0 (by push_cast; omega)
  have e01 : r + ((0 : Nat) : Int) * d.1 = r := by push_cast; ring
  have e02 : c + ((0 : Nat) : Int) * d.2 = c := by push_cast; ring
  rw [e01, e02] at h0run
  obtain ⟨hr0, hrn, hc0, hcn, hcell⟩ := h0run
  have hidx0 : (0 : Int) ≤ r * g.board_size + c :=
    add_nonneg (mul_nonneg hr0 (le_of_lt hn)) hc0
  have hidxInt : (((r * g.board_size + c).toNat : Nat) : Int) = r * g.board_size + c :=
    Int.toNat_of_nonneg hidx0
  have hchkfalse := winnerAux_eq_none g.board g.board_size g.win_length g.board 0 hnone
    (r * g.board_size + c).toNat m hcell
  rw [Nat.zero_add] at hchkfalse
  have hchktrue : checkCellDirs g.board g.board_size g.win_length m
      (r * g.board_size + c).toNat = true := by
    unfold checkCellDirs
    apply List.any_eq_true.mpr
    refine ⟨d, hd, ?_⟩
    have hdm := divmod_encode (r := r) (c := c) hn hc0 hcn
    rw [hidxInt, hdm.1, hdm.2]
    have htw : (((g.win_length - 1).toNat : Nat) : Int) = g.win_length - 1 :=
      Int.toNat_of_nonneg (by omega)
    apply scan_complete g.board g.board_size m g.win_length d.1 d.2
      (g.win_length - 1).toNat g.board_size.toNat 1 (r + d.1) (c + d.2)
    · intro k hk
      have hk1 : ((k + 1 : Nat) : Int) < g.win_length := by
        push_cast
        omega
      have hck := hrun (k + 1) hk1
      have e1 : r + ((k + 1 : Nat) : Int) * d.1 = r + d.1 + (k : Int) * d.1 := by
        push_cast
        ring
      have e2 : c + ((k + 1 : Nat) : Int) * d.2 = c + d.2 + (k : Int) * d.2 := by
        push_cast
        ring
      rwa [e1, e2] at hck
    · omega
    · omega
    · omega
  rw [hchkfalse] at hchktrue
  exact Bool.false_ne_true hchktrue

theorem evaluate_eq_of_winner_none (g : Game) (hw : g.winner = none) :
    g.evaluate = if g.is_draw = true then Outcome.Draw else Outcome.InProgress := by
  unfold Game.evaluate
  rw [hw]

theorem evaluate_eq_of_winner_some (g : Game) (m : Mark) (hw : g.winner = some m) :
    g.evaluate = Outcome.Win m := by
  unfold Game.evaluate
  rw [hw]

theorem evaluate_win_iff (g : Game) (m : Mark) :
    g.evaluate = Outcome.Win m ↔ g.winner = some m := by
  rcases hw : g.winner with _ | m'
  · rw [evaluate_eq_of_winner_none g hw]
    constructor
    · intro h
      split at h <;> exact Outcome.noConfusion h
    · intro h
      exact Option.noConfusion h
  · rw [evaluate_eq_of_winner_some g m' hw]
    constructor
    · intro h
      rw [Outcome.Win.injEq] at h
      rw [h]
    · intro h
      rw [Option.some.inj h]

theorem winner_none_iff_no_specRun (g : Game) (hn : 0 < g.board_size)
    (h2 : 2 ≤ g.win_length) (hLn : g.win_length ≤ g.board_size)
    (hlen : (g.board.length : Int) = g.board_size * g.board_size) :
    g.winner = none ↔ ∀ m, ¬ specRun g m := by
  constructor
  · intro h m hm
    have hs := specRun_winner_isSome g hn h2 hLn hlen m hm
    rw [h] at hs
    exact Bool.false_ne_true hs
  · intro hall
    cases hw : g.winner with
    | none => rfl
    | some m => exact absurd (winner_some_spec g hn hlen m hw) (hall m)

theorem is_draw_iff (g : Game) :
    g.is_draw = true ↔ (g.winner = none ∧ ∀ c ∈ g.board, c ≠ none) := by
  unfold Game.is_draw
  rw [Bool.and_eq_true, List.all_eq_true, decide_eq_true_eq]
  constructor
  · rintro ⟨h1, h2⟩
    exact ⟨h2, fun c hc => of_decide_eq_true (h1 c hc)⟩
  · rintro ⟨h1, h2⟩
    exact ⟨fun c hc => decide_eq_true (h2 c hc), h1⟩

/-- C1 (amended to `2 ≤ run_length`): for every board with
`2 ≤ run_length ≤ size` and `size*size` cells, the outcome evaluation
returns `Win` exactly when some occupied cell starts a forward run of at
least `run_length` same-mark cells along one of the four direction vectors
(and the reported mark does start such a run); it returns `Draw` exactly
when there is no such run and no `Empty` cell remains; it returns
`InProgress` exactly otherwise — in particular on the all-empty board. -/
theorem c1_evaluate_spec (g : Game) (hn : 0 < g.board_size) (h2 : 2 ≤ g.win_length)
    (hLn : g.win_length ≤ g.board_size)
    (hlen : (g.board.length : Int) = g.board_size * g.board_size) :
    (∀ m, g.evaluate = Outcome.Win m → specRun g m) ∧
    ((∃ m, specRun g m) → ∃ m', g.evaluate = Outcome.Win m') ∧
    (g.evaluate = Outcome.Draw ↔ ((∀ m, ¬ specRun g m) ∧ ∀ c ∈ g.board, c ≠ none)) ∧
    (g.evaluate = Outcome.InProgress ↔
      ((∀ m, ¬ specRun g m) ∧ ∃ c ∈ g.board, c = none)) ∧
    ((∀ c ∈ g.board, c = none) → g.evaluate = Outcome.InProgress) := by
  have hwinspec := winner_none_iff_no_specRun g hn h2 hLn hlen
  refine ⟨?_, ?_, ?_, ?_, ?_⟩
  · intro m hm
    exact winner_some_spec g hn hlen m ((evaluate_win_iff g m).mp hm)
  · rintro ⟨m, hm⟩
    have hs := specRun_winner_isSome g hn h2 hLn hlen m hm
    rcases hw : g.winner with _ | m'
    · rw [hw] at hs
      exact absurd hs Bool.false_ne_true
    · exact ⟨m', (evaluate_win_iff g m').mpr hw⟩
  · rcases hw : g.winner with _ | mw
    · rw [evaluate_eq_of_winner_none g hw]
      by_cases hdr : g.is_draw = true
      · rw [if_pos hdr]
        constructor
        · intro _
          exact ⟨hwinspec.mp hw, ((is_draw_iff g).mp hdr).2⟩
        · intro _
          rfl
      · rw [if_neg hdr]
        constructor
        · intro h
          exact Outcome.noConfusion h
        · rintro ⟨hno, hfull⟩
          exact absurd ((is_draw_iff g).mpr ⟨hw, hfull⟩) hdr
    · rw [evaluate_eq_of_winner_some g mw hw]
      constructor
      · intro h
        exact Outcome.noConfusion h
      · rintro ⟨hno, _⟩
        exact absurd (winner_some_spec g hn hlen mw hw) (hno mw)
  · rcases hw : g.winner with _ | mw
    · rw [evaluate_eq_of_winner_none g hw]
      by_cases hdr : g.is_draw = true
      · rw [if_pos hdr]
        constructor
        · intro h
          exact Outcome.noConfusion h
        · rintro ⟨_, c, hc, hcnone⟩
          exact absurd hcnone (((is_draw_iff g).mp hdr).2 c hc)
      · rw [if_neg hdr]
        constructor
        · intro _
          refine ⟨hwinspec.mp hw, ?_⟩
          by_contra hno
          push_neg at hno
          exact hdr ((is_draw_iff g).mpr ⟨hw, fun c hc => hno c hc⟩)
        · intro _
          rfl
    · rw [evaluate_eq_of_winner_some g mw hw]
      constructor
      · intro h
        exact Outcome.noConfusion h
      · rintro ⟨hno, _⟩
        exact absurd (winner_some_spec g hn hlen mw hw) (hno mw)
  · intro hall
    have hwn : g.winner = none := by
      unfold Game.winner
      exact winnerAux_all_none g.board g.board_size g.win_length g.board 0 hall
    have hne : g.board ≠ [] := by
      intro hnil
      rw [hnil] at hlen
      simp only [List.length_nil, Nat.cast_zero] at hlen
      nlinarith
    obtain ⟨c, hc⟩ := List.exists_mem_of_ne_nil g.board hne
    have hdr : g.is_draw = false := by
      cases hb : g.is_draw with
      | false => rfl
      | true =>
        have := ((is_draw_iff g).mp hb).2 c hc
        exact absurd (hall c hc) this
    rw [evaluate_eq_of_winner_none g hwn, hdr]
    rfl

/-- C1 witness: a horizontal pair of `"o"` on a 2×2 board with
`run_length = 2` evaluates to a win, so the claim's run exists. -/
theorem c1_witness :
    specRun
      { Game.init 2 2 true with board := [some Mark.o, some Mark.o, none, none], turn := 2 }
      Mark.o :=
  (c1_evaluate_spec
    { Game.init 2 2 true with board := [some Mark.o, some Mark.o, none, none], turn := 2 }
    (by decide) (by decide) (by decide) (by decide)).1 Mark.o (by decide)

/-- C1 counterexample: with `size = 1`, `run_length = 1` (inside the claim's
range `1 ≤ L ≤ n`) and a single stone, the claim's run of length 1 exists,
yet the evaluation returns `Draw`, not `Win` — the code only detects a win
inside the walk loop, after the count has reached at least 2. -/
theorem c1_counterexample :
    (∃ m, specRun { Game.init 1 1 true with board := [some Mark.o], turn := 1 } m) ∧
    Game.evaluate { Game.init 1 1 true with board := [some Mark.o], turn := 1 } =
      Outcome.Draw := by
  constructor
  · refine ⟨Mark.o, 0, 0, (1, 0), by decide, ?_⟩
    intro k hk
    have hk0 : k = 0 := by
      have : (k : Int) < 1 := hk
      omega
    subst hk0
    have e1 : (0 : Int) + ((0 : Nat) : Int) * 1 = 0 := by norm_num
    have e2 : (0 : Int) + ((0 : Nat) : Int) * 0 = 0 := by norm_num
    rw [e1, e2]
    exact ⟨by decide, by decide, by decide, by decide, by decide⟩
  · decide

/-- Whenever `winner` reports a mark, two distinct cells hold that mark: the
run origin and the first walked neighbor (the count check happens only after
the count is incremented past the origin). -/
theorem winner_some_two_cells (g : Game) (hn : 0 < g.board_size)
    (hlen : (g.board.length : Int) = g.board_size * g.board_size) (m : Mark)
    (h : g.winner = some m) :
    ∃ i1 i2 : Nat, i1 ≠ i2 ∧ g.board[i1]? = some (some m) ∧
      g.board[i2]? = some (some m) := by
  obtain ⟨j, hj1, hj2⟩ := winnerAux_eq_some g.board g.board_size g.win_length g.board 0 m h
  rw [Nat.zero_add] at hj2
  have hjlt : (j : Int) < g.board_size * g.board_size := by
    rcases List.getElem?_eq_some_iff.mp hj1 with ⟨hjl, _⟩
    omega
  obtain ⟨hr0, hrn, hc0, hcn, hrc⟩ := divmod_bridge hn j hjlt
  unfold checkCellDirs at hj2
  rcases List.any_eq_true.mp hj2 with ⟨d, hd, hscan⟩
  obtain ⟨jj, hcells, _⟩ := scan_sound g.board g.board_size m g.win_length d.1 d.2
    g.board_size.toNat 1 (Int.fdiv (j : Int) g.board_size + d.1)
    (Int.fmod (j : Int) g.board_size + d.2) hscan
  have hcell1 := hcells 0 (Nat.zero_le jj)
  have e1 : Int.fdiv (j : Int) g.board_size + d.1 + ((0 : Nat) : Int) * d.1 =
      Int.fdiv (j : Int) g.board_size + d.1 := by push_cast; ring
  have e2 : Int.fmod (j : Int) g.board_size + d.2 + ((0 : Nat) : Int) * d.2 =
      Int.fmod (j : Int) g.board_size + d.2 := by push_cast; ring
  rw [e1, e2] at hcell1
  obtain ⟨hb1, hb2, hb3, hb4, hlook⟩ := hcell1
  set r := Int.fdiv (j : Int) g.board_size with hrdef
  set c := Int.fmod (j : Int) g.board_size with hcdef
  have hpos : (0 : Int) ≤ (r + d.1) * g.board_size + (c + d.2) :=
    add_nonneg (mul_nonneg hb1 (le_of_lt hn)) hb3
  have hcast : ((((r + d.1) * g.board_size + (c + d.2)).toNat : Nat) : Int) =
      (r + d.1) * g.board_size + (c + d.2) := Int.toNat_of_nonneg hpos
  refine ⟨j, ((r + d.1) * g.board_size + (c + d.2)).toNat, ?_, hj1, hlook⟩
  intro heq
  have heqInt : (j : Int) = (r + d.1) * g.board_size + (c + d.2) := by
    rw [heq]
    exact hcast
  have hexp : (r + d.1) * g.board_size + (c + d.2) =
      r * g.board_size + d.1 * g.board_size + c + d.2 := by ring
  rw [hexp] at heqInt
  have hdirs : d = ((1 : Int), (0 : Int)) ∨ d = (0, 1) ∨ d = (1, 1) ∨ d = (1, -1) := by
    simpa [dirs] using hd
  rcases hdirs with hdv | hdv | hdv | hdv <;> subst hdv <;>
    simp only [] at heqInt hb1 hb2 hb3 hb4 <;> omega

theorem countP_ge_two (l : List (Option Mark)) :
    ∀ (i1 i2 : Nat) (m1 m2 : Mark), i1 ≠ i2 →
      l[i1]? = some (some m1) → l[i2]? = some (some m2) →
      2 ≤ l.countP fun c => decide (c ≠ none) := by
  induction l with
  | nil =>
    intro i1 i2 m1 m2 _ h1 _
    simp at h1
  | cons x rest ih =>
    intro i1 i2 m1 m2 hne h1 h2
    have hgen : ∀ (i : Nat) (m : Mark), 0 < i → (x :: rest)[i]? = some (some m) →
        0 < rest.countP fun c => decide (c ≠ none) := by
      intro i m hi hcell
      cases i with
      | zero => omega
      | succ i' =>
        have : rest[i']? = some (some m) := by simpa using hcell
        exact List.countP_pos_iff.mpr
          ⟨some m, List.getElem?_mem this, decide_eq_true (fun hnone => Option.noConfusion hnone)⟩
    rw [List.countP_cons]
    cases hi1 : i1 with
    | zero =>
      rw [hi1] at h1
      have hx : x = some m1 := by simpa using h1
      have hone : 0 < rest.countP fun c => decide (c ≠ none) :=
        hgen i2 m2 (by omega) h2
      rw [hx]
      simp only [decide_eq_true_eq]
      rw [if_pos (fun hnone => Option.noConfusion hnone)]
      omega
    | succ i1' =>
      cases hi2 : i2 with
      | zero =>
        rw [hi2] at h2
        have hx : x = some m2 := by simpa using h2
        have hone : 0 < rest.countP fun c => decide (c ≠ none) :=
          hgen i1 m1 (by omega) h1
        rw [hx]
        simp only [decide_eq_true_eq]
        rw [if_pos (fun hnone => Option.noConfusion hnone)]
        omega
      | succ i2' =>
        rw [hi1] at h1
        rw [hi2] at h2
        have htwo := ih i1' i2' m1 m2 (by omega) (by simpa using h1) (by simpa using h2)
        omega

/-- C2 (amended): the engine does not crash with `run_length = 1`, but it
does not treat the first placed stone as a win either: `winner` reports a
win only when at least two adjacent same-mark cells exist, so a board with
at most one stone — in particular a board with exactly one stone just
placed, whatever `run_length` is — has no winner. -/
theorem c2_single_stone_no_winner (g : Game) (hn : 0 < g.board_size)
    (hlen : (g.board.length : Int) = g.board_size * g.board_size)
    (hone : (g.board.countP fun c => decide (c ≠ none)) ≤ 1) :
    g.winner = none := by
  cases hw : g.winner with
  | none => rfl
  | some m =>
    obtain ⟨i1, i2, hne, h1, h2⟩ := winner_some_two_cells g hn hlen m hw
    have htwo := countP_ge_two g.board i1 i2 m m hne h1 h2
    omega

/-- C2 witness: a 2×2 board with `run_length = 1` and one stone just placed
— no winner is reported (and the evaluation terminates normally). -/
theorem c2_witness :
    Game.winner
      { Game.init 2 1 true with board := [none, none, none, some Mark.o], turn := 1 } =
      none :=
  c2_single_stone_no_winner
    { Game.init 2 1 true with board := [none, none, none, some Mark.o], turn := 1 }
    (by decide) (by decide) (by decide)

/-- C2 counterexample: `run_length = 1`, one stone just placed at index 0 of
a 2×2 board — the claim demands `Win(o)`, but `winner` reports no winner
(the `count >= win_length` check is only reached after a second matching
cell). -/
theorem c2_counterexample :
    ({ Game.init 2 1 true with
        board := [some Mark.o, none, none, none], turn := 1 } : Game).win_length = 1 ∧
    ({ Game.init 2 1 true with
        board := [some Mark.o, none, none, none], turn := 1 } : Game).board[0]? =
      some (some Mark.o) ∧
    Game.winner
      { Game.init 2 1 true with board := [some Mark.o, none, none, none], turn := 1 } =
      none := by
  refine ⟨rfl, rfl, by decide⟩

